import Mathlib

/-!
Verification of the ORIM covert-channel engine (`orim_engine`).

This file shallowly embeds the algorithmic core of `orim_server.py`,
`protocol.py` and `decoder_service.py` in Lean:

* bit strings (Python strings of '0'/'1') become `List Bool`
  (`true` = '1'); `int(s, 2)` becomes `bitsVal`; `bin(x)[2:]` becomes
  `natToBin`; `str.zfill` becomes `zfill` and `str.ljust(_, '0')`
  becomes `ljustF`;
* byte strings become `List Nat` of values `< 256`;
* the keyed PRF (HMAC-SHA256) is an opaque parameter `prf : Nat → Nat`,
  hash identifiers are opaque `Nat`s: only the induced order matters;
* the SQLite store is replaced by explicit state passing.

Theorems named `c1_…` … `c10_…` settle the frozen claims C1…C10.
-/

namespace Orim

/-- The loop `m = 1; while (1 << m) < n_factorial: m += 1` from
`bits_to_rank` / `rank_to_bits` / `get_next_secret_bits`, with explicit
fuel (`fuel = N` always suffices, since `2 ^ N ≥ N` for every `N`). -/
def mAux : Nat → Nat → Nat → Nat
  | 0, _, m => m
  | fuel + 1, N, m => if 2 ^ m < N then mAux fuel N (m + 1) else m

/-- `m_of N` is the `m` computed by the Python loop: the smallest `m ≥ 1`
with `2 ^ m ≥ N`. -/
def m_of (N : Nat) : Nat := mAux N N 1

/-- `int(s, 2)` for a big-endian bit string (`int("", 2)` raises in
Python; that call site is unreachable for `n ≥ 2`, and we return 0). -/
def bitsVal : List Bool → Nat
  | [] => 0
  | b :: r => (cond b 1 0) * 2 ^ r.length + bitsVal r

/-- `s.ljust(w, '0')`: pad on the right with zero bits up to width `w`. -/
def ljustF (l : List Bool) (w : Nat) : List Bool :=
  l ++ List.replicate (w - l.length) false

/-- `s.zfill(w)`: pad on the left with zero bits up to width `w`. -/
def zfill (w : Nat) (l : List Bool) : List Bool :=
  List.replicate (w - l.length) false ++ l

/-- Helper for `natToBin`: repeatedly divide by two, accumulating digits
(fuel-based so that the kernel can evaluate it; `fuel = x` suffices). -/
def natToBinFuel : Nat → Nat → List Bool → List Bool
  | 0, _, acc => acc
  | fuel + 1, x, acc =>
    if x = 0 then acc else natToBinFuel fuel (x / 2) (decide (x % 2 = 1) :: acc)

/-- `bin(x)[2:]`: minimal-width big-endian binary digits (with
`bin(0)[2:] = "0"`). -/
def natToBin (x : Nat) : List Bool :=
  if x = 0 then [false] else natToBinFuel x x []

/-- `ORIMServer.bits_to_rank` (orim_server.py, "Algorithm 2: Data
Encoding", Complete Binary Tree mapping).  Returns `(rank, bits_consumed)`. -/
def bits_to_rank (bits : List Bool) (n : Nat) : Nat × Nat :=
  let nfact := n.factorial
  let m := m_of nfact
  let threshold := 2 ^ m - nfact
  if threshold = 0 then
    let data := if m ≤ bits.length then bitsVal (bits.take m)
                else bitsVal (ljustF bits m)
    (min data (nfact - 1), min bits.length m)
  else if m ≤ bits.length then
    let v := bitsVal (bits.take m)
    if v < threshold then (min v (nfact - 1), m)
    else (min (threshold + bitsVal (bits.take (m - 1))) (nfact - 1), m - 1)
  else if m - 1 ≤ bits.length then
    (min (threshold + bitsVal (bits.take (m - 1))) (nfact - 1), m - 1)
  else
    (min (threshold + bitsVal (ljustF bits (m - 1))) (nfact - 1), bits.length)

/-- `ORIMServer.rank_to_bits` (orim_server.py, "Algorithm 4: Data
Decoding"). -/
def rank_to_bits (rank n : Nat) : List Bool :=
  let nfact := n.factorial
  let m := m_of nfact
  let threshold := 2 ^ m - nfact
  if threshold = 0 then zfill m (natToBin rank)
  else if rank < threshold then zfill m (natToBin rank)
  else zfill (m - 1) (natToBin (rank - threshold))

/-- Decoder as the SPEC words it (spec §4.3 `decode(rank,N)→bits`):
`T = 2N − 2^m` is the size of the long layer; `if T=0 or rank<T: bits =
rank as m-bit binary; else bits = (rank−(N−2^(m−1))) as (m−1)-bit
binary`.  This is the second definition of a refinement pair, written
from the spec's words, to be compared with `rank_to_bits` above, which
is translated from the source. -/
def specRankToBits (rank n : Nat) : List Bool :=
  let nfact := n.factorial
  let m := m_of nfact
  let T := 2 * nfact - 2 ^ m
  if T = 0 ∨ rank < T then zfill m (natToBin rank)
  else zfill (m - 1) (natToBin (rank - (nfact - 2 ^ (m - 1))))

/-- `get_next_secret_bits` chunk extraction (orim_server.py): fetch
`max_capacity = m` bits at the stored cursor and right-pad with zeros to
`m` bits. -/
def get_next_chunk (payload : List Bool) (pos n : Nat) : List Bool :=
  ljustF ((payload.drop pos).take (m_of (n.factorial))) (m_of (n.factorial))

/-- The cursor update performed by `handle_send_request`:
`new_position = position + bits_consumed`, where `bits_consumed` is
computed by `bits_to_rank` on the padded chunk. -/
def send_new_position (payload : List Bool) (pos n : Nat) : Nat :=
  pos + (bits_to_rank (get_next_chunk payload pos n) n).2

/-! ### Basic facts about the encoder -/

lemma mAux_ge (fuel N m : Nat) : m ≤ mAux fuel N m := by
  induction fuel generalizing m with
  | zero => simp [mAux]
  | succ fuel ih =>
    simp only [mAux]
    split
    · exact le_trans (Nat.le_succ m) (ih (m + 1))
    · exact le_refl m

lemma one_le_m_of (N : Nat) : 1 ≤ m_of N := mAux_ge N N 1

/-- `bits_to_rank` with the `let`s inlined, for rewriting. -/
lemma bits_to_rank_def (bits : List Bool) (n : Nat) :
    bits_to_rank bits n =
      if 2 ^ m_of n.factorial - n.factorial = 0 then
        (min (if m_of n.factorial ≤ bits.length then
                bitsVal (bits.take (m_of n.factorial))
              else bitsVal (ljustF bits (m_of n.factorial))) (n.factorial - 1),
         min bits.length (m_of n.factorial))
      else if m_of n.factorial ≤ bits.length then
        if bitsVal (bits.take (m_of n.factorial)) <
            2 ^ m_of n.factorial - n.factorial then
          (min (bitsVal (bits.take (m_of n.factorial))) (n.factorial - 1),
           m_of n.factorial)
        else
          (min (2 ^ m_of n.factorial - n.factorial +
                bitsVal (bits.take (m_of n.factorial - 1))) (n.factorial - 1),
           m_of n.factorial - 1)
      else if m_of n.factorial - 1 ≤ bits.length then
        (min (2 ^ m_of n.factorial - n.factorial +
              bitsVal (bits.take (m_of n.factorial - 1))) (n.factorial - 1),
         m_of n.factorial - 1)
      else
        (min (2 ^ m_of n.factorial - n.factorial +
              bitsVal (ljustF bits (m_of n.factorial - 1))) (n.factorial - 1),
         bits.length) := rfl

/-- The clamp `rank = min(rank, n_factorial - 1)` keeps every returned
rank below `n!`. -/
lemma bits_to_rank_fst_lt (bits : List Bool) (n : Nat) :
    (bits_to_rank bits n).1 < n.factorial := by
  have hmin : ∀ a : Nat, min a (n.factorial - 1) < n.factorial := fun a =>
    lt_of_le_of_lt (min_le_right a _) (Nat.sub_lt n.factorial_pos Nat.one_pos)
  rw [bits_to_rank_def]
  split
  · exact hmin _
  · split
    · split
      · exact hmin _
      · exact hmin _
    · split
      · exact hmin _
      · exact hmin _

lemma bitsVal_append (a b : List Bool) :
    bitsVal (a ++ b) = bitsVal a * 2 ^ b.length + bitsVal b := by
  induction a with
  | nil => simp [bitsVal]
  | cons x xs ih =>
    simp [bitsVal, ih, List.length_append, pow_add]
    ring

lemma bitsVal_take_succ (l : List Bool) (k : Nat) (h : k < l.length) :
    bitsVal (l.take (k + 1)) =
      2 * bitsVal (l.take k) + cond (l.getD k false) 1 0 := by
  have h1 : l.take (k + 1) = l.take k ++ [l.getD k false] := by
    rw [List.take_succ, List.getD_eq_getElem l false h,
      List.getElem?_eq_getElem h]
    rfl
  rw [h1, bitsVal_append]
  simp [bitsVal]
  ring

/-! ### Claims C1, C2, C5, C6, C8, C10 about the bit packer -/

/-- Claim C1 (code_bug): the claim states that outside the end-of-stream
padding branch, `rank_to_bits (bits_to_rank s n).rank n = s[:bitsConsumed]`.
The code violates it: for `n = 6` (`n! = 720`, `m = 10`,
`threshold = 2^10 − 720 = 304`) and `s = "1101000000"`, the short-layer
rank `304 + 416 = 720` overflows and is clamped by
`rank = min(rank, n_factorial - 1)` to `719`, which decodes to
`"110011111" ≠ s[:9] = "110100000"`.  This theorem evaluates the code at
that failing input. -/
theorem c1_roundtrip_violation :
    bits_to_rank
        [true, true, false, true, false, false, false, false, false, false] 6 =
      (719, 9) ∧
    rank_to_bits 719 6 =
      [true, true, false, false, true, true, true, true, true] ∧
    rank_to_bits 719 6 ≠
      ([true, true, false, true, false, false, false, false, false,
        false].take 9 : List Bool) := by
  refine ⟨by decide, by decide, by decide⟩

/-- Claim C2 (code_bug): the claim (spec §4.3) says `rank_to_bits` splits
at `T = 2·n! − 2^m` and maps a short-layer rank to
`rank − (n! − 2^(m−1))` on `m−1` bits.  The code instead splits at
`threshold = 2^m − n!` and maps to `rank − threshold`.  At `n = 5`
(`n! = 120`, `m = 7`, spec `T = 112`, code `threshold = 8`) and
`rank = 8`, the claim requires the 7-bit string `0001000`, but the code
returns the 6-bit string `000000`. -/
theorem c2_decode_divergence :
    rank_to_bits 8 5 = [false, false, false, false, false, false] ∧
    specRankToBits 8 5 = [false, false, false, true, false, false, false] ∧
    rank_to_bits 8 5 ≠ specRankToBits 8 5 := by
  refine ⟨by decide, by decide, by decide⟩

/-- Claim C5 (code_bug): the claim states
`bits_to_rank (rank_to_bits rank n) n = rank` for every `n ≥ 2` and
`rank < n!`, exhaustively checkable for `n = 3, 5, 7`.  It fails at
`n = 5`, `rank = 72`: the decoder's "short layer" value
`72 − 8 = 64` does not fit in `m − 1 = 6` bits, so `zfill` leaves a
7-bit string, which re-encodes to rank `40`, not `72`. -/
theorem c5_roundtrip_violation :
    rank_to_bits 72 5 = [true, false, false, false, false, false, false] ∧
    bits_to_rank (rank_to_bits 72 5) 5 = (40, 6) ∧
    (bits_to_rank (rank_to_bits 72 5) 5).1 ≠ 72 := by
  refine ⟨by decide, by decide, by decide⟩

/-- Claim C6 (confirmed): for every bit string `s` (including the empty
string) and every `n ≥ 2`, the rank returned by `bits_to_rank s n`
satisfies `0 ≤ rank < n!` (thanks to the final clamp
`rank = min(rank, n_factorial - 1)`). -/
theorem c6_rank_in_range (s : List Bool) (n : Nat) (_hn : 2 ≤ n) :
    0 ≤ (bits_to_rank s n).1 ∧ (bits_to_rank s n).1 < n.factorial :=
  ⟨Nat.zero_le _, bits_to_rank_fst_lt s n⟩

/-- Witness for C6 at `s = ""`, `n = 2`. -/
theorem c6_rank_in_range_witness :
    0 ≤ (bits_to_rank [] 2).1 ∧ (bits_to_rank [] 2).1 < Nat.factorial 2 :=
  c6_rank_in_range [] 2 (by decide)

/-- Claim C8 (code_bug): the claim states that after every Transmission
session `cursorPosition ≤ len(bitPayload)` and the cursor advances only
by actual payload bits consumed.  But `get_next_secret_bits` zero-pads
the fetched chunk to `m` bits before `bits_to_rank` sees it, so
`bits_consumed` counts padding: with payload `"1"` (1 bit, cursor 0) and
an event of size `n = 3`, the chunk is `"100"`, `bits_to_rank` consumes
2 bits, and the stored cursor becomes `2 > 1 = len(bitPayload)`. -/
theorem c8_cursor_overshoot :
    get_next_chunk [true] 0 3 = [true, false, false] ∧
    send_new_position [true] 0 3 = 2 ∧
    ([true] : List Bool).length < send_new_position [true] 0 3 := by
  refine ⟨by decide, by decide, by decide⟩

/-- Claim C10 (confirmed): for `n ≥ 2` and bit strings `s`, `t` of length
`≥ m`, if `t` agrees with `s` on the first `bitsConsumed` bits of
`bits_to_rank s n`, then `bits_to_rank t n = bits_to_rank s n`; in
particular the `m`-th peeked bit in the short-layer branch never
influences the result (the branch test compares `2·x + bit` with the
even number `threshold = 2^m − n!`, so the last bit cannot tip it). -/
theorem c10_consumed_prefix_determines (n : Nat) (hn : 2 ≤ n)
    (s t : List Bool) (hs : m_of n.factorial ≤ s.length)
    (ht : m_of n.factorial ≤ t.length)
    (hagree : t.take (bits_to_rank s n).2 = s.take (bits_to_rank s n).2) :
    bits_to_rank t n = bits_to_rank s n := by
  have hm1 : 1 ≤ m_of n.factorial := one_le_m_of _
  by_cases h0 : 2 ^ m_of n.factorial - n.factorial = 0
  · have e_s : bits_to_rank s n =
        (min (bitsVal (s.take (m_of n.factorial))) (n.factorial - 1),
         m_of n.factorial) := by
      rw [bits_to_rank_def, if_pos h0, if_pos hs, Nat.min_eq_right hs]
    have e_t : bits_to_rank t n =
        (min (bitsVal (t.take (m_of n.factorial))) (n.factorial - 1),
         m_of n.factorial) := by
      rw [bits_to_rank_def, if_pos h0, if_pos ht, Nat.min_eq_right ht]
    rw [e_s] at hagree
    rw [e_t, e_s, hagree]
  · by_cases hv : bitsVal (s.take (m_of n.factorial)) <
        2 ^ m_of n.factorial - n.factorial
    · have e_s : bits_to_rank s n =
          (min (bitsVal (s.take (m_of n.factorial))) (n.factorial - 1),
           m_of n.factorial) := by
        rw [bits_to_rank_def, if_neg h0, if_pos hs, if_pos hv]
      rw [e_s] at hagree
      have hv_t : bitsVal (t.take (m_of n.factorial)) <
          2 ^ m_of n.factorial - n.factorial := by rw [hagree]; exact hv
      have e_t : bits_to_rank t n =
          (min (bitsVal (t.take (m_of n.factorial))) (n.factorial - 1),
           m_of n.factorial) := by
        rw [bits_to_rank_def, if_neg h0, if_pos ht, if_pos hv_t]
      rw [e_t, e_s, hagree]
    · have e_s : bits_to_rank s n =
          (min (2 ^ m_of n.factorial - n.factorial +
                bitsVal (s.take (m_of n.factorial - 1))) (n.factorial - 1),
           m_of n.factorial - 1) := by
        rw [bits_to_rank_def, if_neg h0, if_pos hs, if_neg hv]
      rw [e_s] at hagree
      dsimp only at hagree
      have hsm : m_of n.factorial - 1 < s.length := by omega
      have htm : m_of n.factorial - 1 < t.length := by omega
      have hmeq : m_of n.factorial - 1 + 1 = m_of n.factorial := by omega
      have hs' := bitsVal_take_succ s (m_of n.factorial - 1) hsm
      have ht' := bitsVal_take_succ t (m_of n.factorial - 1) htm
      rw [hmeq] at hs' ht'
      obtain ⟨k, hk⟩ : 2 ∣ 2 ^ m_of n.factorial - n.factorial :=
        Nat.dvd_sub' (dvd_pow_self 2 (by omega : m_of n.factorial ≠ 0))
          (Nat.dvd_factorial (by omega) hn)
      have hbs : cond (s.getD (m_of n.factorial - 1) false) 1 0 ≤ 1 := by
        cases s.getD (m_of n.factorial - 1) false <;> simp
      have hbt : cond (t.getD (m_of n.factorial - 1) false) 1 0 ≤ 1 := by
        cases t.getD (m_of n.factorial - 1) false <;> simp
      have hv_t : ¬ bitsVal (t.take (m_of n.factorial)) <
          2 ^ m_of n.factorial - n.factorial := by
        rw [ht', hagree]
        rw [hs'] at hv
        omega
      have e_t : bits_to_rank t n =
          (min (2 ^ m_of n.factorial - n.factorial +
                bitsVal (t.take (m_of n.factorial - 1))) (n.factorial - 1),
           m_of n.factorial - 1) := by
        rw [bits_to_rank_def, if_neg h0, if_pos ht, if_neg hv_t]
      rw [e_t, e_s, hagree]

/-- Witness for C10 at `n = 3`, `s = "111"`, `t = "110"`: the third bit
is peeked but not consumed, and both strings encode to rank 5 with 2
bits consumed. -/
theorem c10_consumed_prefix_determines_witness :
    bits_to_rank [true, true, false] 3 = bits_to_rank [true, true, true] 3 :=
  c10_consumed_prefix_determines 3 (by decide) [true, true, true]
    [true, true, false] (by decide) (by decide) (by decide)

/-! ### The permutation rank codec (Lehmer code), orim_server.py -/

/-- `ORIMServer.factorial_number_system`: the loop
`for i in range(n, 0, -1): c = rank // (i-1)!; rank %= (i-1)!`. -/
def factorial_number_system : Nat → Nat → List Nat
  | _, 0 => []
  | rank, n + 1 =>
    rank / n.factorial :: factorial_number_system (rank % n.factorial) n

/-- The loop of `ORIMServer.lehmer_to_permutation`:
`for c in lehmer: permutation.append(available.pop(c))`
(`available.pop(c)` raises `IndexError` when `c` is out of range; we use
`getD _ 0`, that path is unreachable for a valid Lehmer code). -/
def lehmer_to_permutation_aux : List Nat → List Nat → List Nat
  | _, [] => []
  | avail, c :: cs =>
    avail.getD c 0 :: lehmer_to_permutation_aux (avail.eraseIdx c) cs

/-- `ORIMServer.lehmer_to_permutation`, with `available = list(range(n))`. -/
def lehmer_to_permutation (l : List Nat) : List Nat :=
  lehmer_to_permutation_aux (List.range l.length) l

/-- `ORIMServer.permutation_to_lehmer`: digit `i` counts the `j > i`
with `permutation[j] < permutation[i]`. -/
def permutation_to_lehmer : List Nat → List Nat
  | [] => []
  | p :: rest =>
    rest.countP (fun x => decide (x < p)) :: permutation_to_lehmer rest

/-- `ORIMServer.lehmer_to_rank`: `rank = Σ c_i · (n−1−i)!`. -/
def lehmer_to_rank : List Nat → Nat
  | [] => 0
  | c :: cs => c * (cs.length).factorial + lehmer_to_rank cs

/-- spec §4.2 `rankToPermutation`: `factorial_number_system` followed by
`lehmer_to_permutation` (steps 5 of `handle_send_request`). -/
def rankToPermutation (rank n : Nat) : List Nat :=
  lehmer_to_permutation (factorial_number_system rank n)

/-- spec §4.2 `permutationToRank`: `permutation_to_lehmer` followed by
`lehmer_to_rank` (step 4 of `handle_receive_request`). -/
def permutationToRank (p : List Nat) : Nat :=
  lehmer_to_rank (permutation_to_lehmer p)

/-- A valid Lehmer code: digit `i` lies in `[0, n−i)`. -/
def ValidL : List Nat → Prop
  | [] => True
  | c :: cs => c ≤ cs.length ∧ ValidL cs

lemma length_fns (rank n : Nat) : (factorial_number_system rank n).length = n := by
  induction n generalizing rank with
  | zero => rfl
  | succ n ih => simp [factorial_number_system, ih]

lemma validL_fns (rank n : Nat) (h : rank < n.factorial) :
    ValidL (factorial_number_system rank n) := by
  induction n generalizing rank with
  | zero => trivial
  | succ n ih =>
    refine ⟨?_, ih _ (Nat.mod_lt _ n.factorial_pos)⟩
    rw [length_fns]
    have hd : rank / n.factorial < n + 1 :=
      (Nat.div_lt_iff_lt_mul n.factorial_pos).mpr
        (by rw [Nat.factorial_succ] at h; exact h)
    omega

lemma l2r_fns (rank n : Nat) (h : rank < n.factorial) :
    lehmer_to_rank (factorial_number_system rank n) = rank := by
  induction n generalizing rank with
  | zero =>
    have h0 : rank = 0 := by simpa [Nat.factorial] using h
    simp [h0, factorial_number_system, lehmer_to_rank]
  | succ n ih =>
    simp only [factorial_number_system, lehmer_to_rank, length_fns]
    rw [ih _ (Nat.mod_lt _ n.factorial_pos)]
    exact Nat.div_add_mod' rank n.factorial

lemma l2r_lt (l : List Nat) (h : ValidL l) :
    lehmer_to_rank l < (l.length).factorial := by
  induction l with
  | nil => simp [lehmer_to_rank, Nat.factorial]
  | cons c cs ih =>
    obtain ⟨hc, hv⟩ := h
    have h1 : lehmer_to_rank cs < cs.length.factorial := ih hv
    simp only [lehmer_to_rank, List.length_cons, Nat.factorial_succ]
    calc c * cs.length.factorial + lehmer_to_rank cs
        < (c + 1) * cs.length.factorial := by rw [add_one_mul]; omega
      _ ≤ (cs.length + 1) * cs.length.factorial :=
        Nat.mul_le_mul_right _ (by omega)

lemma fns_l2r (l : List Nat) (h : ValidL l) :
    factorial_number_system (lehmer_to_rank l) l.length = l := by
  induction l with
  | nil => rfl
  | cons c cs ih =>
    obtain ⟨hc, hv⟩ := h
    have hlt : lehmer_to_rank cs < cs.length.factorial := l2r_lt cs hv
    simp only [lehmer_to_rank, List.length_cons, factorial_number_system]
    have hd : (c * cs.length.factorial + lehmer_to_rank cs) /
        cs.length.factorial = c := by
      rw [mul_comm, Nat.mul_add_div cs.length.factorial_pos,
        Nat.div_eq_of_lt hlt]
      omega
    have hm : (c * cs.length.factorial + lehmer_to_rank cs) %
        cs.length.factorial = lehmer_to_rank cs := by
      rw [mul_comm, Nat.mul_add_mod, Nat.mod_eq_of_lt hlt]
    rw [hd, hm, ih hv]

lemma l2pAux_length (l : List Nat) :
    ∀ avail, (lehmer_to_permutation_aux avail l).length = l.length := by
  induction l with
  | nil => intro avail; rfl
  | cons c cs ih =>
    intro avail
    simp [lehmer_to_permutation_aux, ih]

lemma getD_cons_eraseIdx_perm (a : List Nat) (c : Nat) (h : c < a.length) :
    a.Perm (a.getD c 0 :: a.eraseIdx c) := by
  induction a generalizing c with
  | nil => simp at h
  | cons x xs ih =>
    cases c with
    | zero => exact List.Perm.refl _
    | succ c =>
      have hc : c < xs.length := by simpa using h
      show (x :: xs).Perm (xs.getD c 0 :: x :: xs.eraseIdx c)
      exact ((ih c hc).cons x).trans (List.Perm.swap _ _ _)

lemma l2pAux_perm (l : List Nat) :
    ∀ avail, ValidL l → l.length = avail.length →
      (lehmer_to_permutation_aux avail l).Perm avail := by
  induction l with
  | nil =>
    intro avail _ hl
    have ha : avail = [] := List.eq_nil_of_length_eq_zero hl.symm
    simp [ha, lehmer_to_permutation_aux]
  | cons c cs ih =>
    intro avail hv hl
    obtain ⟨hc, hv'⟩ := hv
    have hlen : cs.length + 1 = avail.length := by simpa using hl
    have hca : c < avail.length := by omega
    have hel : cs.length = (avail.eraseIdx c).length := by
      rw [List.length_eraseIdx_of_lt hca]; omega
    have h2 := ih (avail.eraseIdx c) hv' hel
    show (avail.getD c 0 ::
      lehmer_to_permutation_aux (avail.eraseIdx c) cs).Perm avail
    exact (h2.cons _).trans (getD_cons_eraseIdx_perm avail c hca).symm

lemma countP_lt_getD_of_sorted (a : List Nat) (ha : List.Sorted (· < ·) a) :
    ∀ c, c < a.length →
      a.countP (fun x => decide (x < a.getD c 0)) = c := by
  induction a with
  | nil => intro c hc; simp at hc
  | cons y ys ih =>
    intro c hc
    have hy : ∀ z ∈ ys, y < z := (List.sorted_cons.mp ha).1
    have hys : List.Sorted (· < ·) ys := (List.sorted_cons.mp ha).2
    cases c with
    | zero =>
      simp only [List.getD_cons_zero, List.countP_cons]
      have h0 : ys.countP (fun x => decide (x < y)) = 0 := by
        rw [List.countP_eq_zero]
        intro z hz
        simp [Nat.not_lt.mpr (le_of_lt (hy z hz))]
      simp [h0]
    | succ c =>
      have hc' : c < ys.length := by simpa using hc
      have ht : ys.getD c 0 ∈ ys := by
        rw [List.getD_eq_getElem ys 0 hc']
        exact List.getElem_mem hc'
      have hstep : (y :: ys).getD (c + 1) 0 = ys.getD c 0 := rfl
      rw [hstep, List.countP_cons, ih hys c hc']
      have hlt := hy _ ht
      simp only [List.getD_eq_getElem?_getD] at hlt
      simp [hlt]

lemma countP_eraseIdx_sorted (a : List Nat) (ha : List.Sorted (· < ·) a)
    (c : Nat) (hc : c < a.length) :
    (a.eraseIdx c).countP (fun x => decide (x < a.getD c 0)) = c := by
  have hperm := (getD_cons_eraseIdx_perm a c hc).countP_eq
    (fun x => decide (x < a.getD c 0))
  rw [countP_lt_getD_of_sorted a ha c hc, List.countP_cons] at hperm
  simpa using hperm.symm

lemma p2l_l2pAux (l : List Nat) :
    ∀ avail, List.Sorted (· < ·) avail → ValidL l →
      l.length = avail.length →
      permutation_to_lehmer (lehmer_to_permutation_aux avail l) = l := by
  induction l with
  | nil => intro avail _ _ _; rfl
  | cons c cs ih =>
    intro avail hs hv hl
    obtain ⟨hc, hv'⟩ := hv
    have hlen : cs.length + 1 = avail.length := by simpa using hl
    have hca : c < avail.length := by omega
    have hel : cs.length = (avail.eraseIdx c).length := by
      rw [List.length_eraseIdx_of_lt hca]; omega
    have hsE : List.Sorted (· < ·) (avail.eraseIdx c) :=
      List.Pairwise.sublist (List.eraseIdx_sublist avail c) hs
    have hpermtail := l2pAux_perm cs (avail.eraseIdx c) hv' hel
    simp only [lehmer_to_permutation_aux, permutation_to_lehmer]
    have hhead : (lehmer_to_permutation_aux (avail.eraseIdx c) cs).countP
        (fun x => decide (x < avail.getD c 0)) = c := by
      rw [hpermtail.countP_eq]
      exact countP_eraseIdx_sorted avail hs c hca
    rw [hhead, ih (avail.eraseIdx c) hsE hv' hel]

lemma p2l_length (l : List Nat) :
    (permutation_to_lehmer l).length = l.length := by
  induction l with
  | nil => rfl
  | cons p rest ih => simp [permutation_to_lehmer, ih]

lemma validL_p2l (l : List Nat) : ValidL (permutation_to_lehmer l) := by
  induction l with
  | nil => trivial
  | cons p rest ih =>
    refine ⟨?_, ih⟩
    rw [p2l_length]
    exact List.countP_le_length _

lemma sorted_getD_countP (a : List Nat) (hs : List.Sorted (· < ·) a)
    (x : Nat) (hx : x ∈ a) :
    a.getD (a.countP (fun z => decide (z < x))) 0 = x ∧
    a.eraseIdx (a.countP (fun z => decide (z < x))) = a.erase x := by
  induction a with
  | nil => simp at hx
  | cons y ys ih =>
    have hy : ∀ z ∈ ys, y < z := (List.sorted_cons.mp hs).1
    have hys : List.Sorted (· < ·) ys := (List.sorted_cons.mp hs).2
    by_cases hxy : x = y
    · subst hxy
      have h0 : (x :: ys).countP (fun z => decide (z < x)) = 0 := by
        rw [List.countP_eq_zero]
        intro z hz
        rcases List.mem_cons.mp hz with rfl | hz'
        · simp
        · simp [Nat.not_lt.mpr (le_of_lt (hy z hz'))]
      rw [h0]
      exact ⟨rfl, (List.erase_cons_head x ys).symm⟩
    · have hxys : x ∈ ys := by
        rcases List.mem_cons.mp hx with h | h
        · exact absurd h hxy
        · exact h
      have hyx : y < x := hy x hxys
      have hcount : (y :: ys).countP (fun z => decide (z < x)) =
          ys.countP (fun z => decide (z < x)) + 1 := by
        rw [List.countP_cons]; simp [hyx]
      obtain ⟨ih1, ih2⟩ := ih hys hxys
      rw [hcount]
      refine ⟨by simpa using ih1, ?_⟩
      rw [List.eraseIdx_cons_succ, ih2]
      rw [List.erase_cons_tail]
      simp [Ne.symm hxy]

lemma l2pAux_p2l (l : List Nat) :
    ∀ avail, List.Sorted (· < ·) avail → l.Perm avail →
      lehmer_to_permutation_aux avail (permutation_to_lehmer l) = l := by
  induction l with
  | nil =>
    intro avail _ hp
    have : avail = [] := hp.symm.eq_nil
    simp [this, permutation_to_lehmer, lehmer_to_permutation_aux]
  | cons x rest ih =>
    intro avail hs hp
    have hxa : x ∈ avail := hp.subset (List.mem_cons_self x rest)
    have hrest : rest.Perm (avail.erase x) :=
      (hp.trans (List.perm_cons_erase hxa)).cons_inv
    have hsE : List.Sorted (· < ·) (avail.erase x) :=
      List.Pairwise.sublist (List.erase_sublist x avail) hs
    have hc_eq : avail.countP (fun z => decide (z < x)) =
        rest.countP (fun z => decide (z < x)) := by
      rw [← hp.countP_eq, List.countP_cons]
      simp
    obtain ⟨hg, he⟩ := sorted_getD_countP avail hs x hxa
    simp only [permutation_to_lehmer, lehmer_to_permutation_aux]
    rw [← hc_eq, hg, he, ih (avail.erase x) hsE hrest]

/-- Round trip rank → permutation → rank. -/
lemma rank_roundtrip (n rank : Nat) (h : rank < n.factorial) :
    permutationToRank (rankToPermutation rank n) = rank := by
  have hv := validL_fns rank n h
  unfold permutationToRank rankToPermutation lehmer_to_permutation
  rw [length_fns, p2l_l2pAux _ _ (List.pairwise_lt_range n) hv
    (by simp [length_fns])]
  exact l2r_fns rank n h

/-- The permutation produced for a rank is a permutation of `[0, n)`. -/
lemma rankToPermutation_perm_range (n rank : Nat) (h : rank < n.factorial) :
    (rankToPermutation rank n).Perm (List.range n) := by
  have hv := validL_fns rank n h
  unfold rankToPermutation lehmer_to_permutation
  rw [length_fns]
  exact l2pAux_perm _ _ hv (by simp [length_fns])

/-- Claim C3 (confirmed): for every `n ≥ 2` and `rank < n!`, converting
the rank to a permutation (`factorial_number_system` then
`lehmer_to_permutation`) and back (`permutation_to_lehmer` then
`lehmer_to_rank`) returns the original rank, and the rank-to-permutation
mapping is a bijection from `[0, n!)` onto all permutations of
`[0, n)` (existence and uniqueness of the preimage rank). -/
theorem c3_rank_permutation_bijection (n : Nat) (_hn : 2 ≤ n) :
    (∀ rank, rank < n.factorial →
        (rankToPermutation rank n).Perm (List.range n) ∧
        permutationToRank (rankToPermutation rank n) = rank) ∧
    (∀ p, p.Perm (List.range n) →
        ∃! rank, rank < n.factorial ∧ rankToPermutation rank n = p) := by
  constructor
  · intro rank hr
    exact ⟨rankToPermutation_perm_range n rank hr, rank_roundtrip n rank hr⟩
  · intro p hp
    have hplen : p.length = n := by rw [hp.length_eq, List.length_range]
    have hv := validL_p2l p
    refine ⟨permutationToRank p, ⟨?_, ?_⟩, ?_⟩
    · have := l2r_lt (permutation_to_lehmer p) hv
      rwa [p2l_length, hplen] at this
    · unfold rankToPermutation permutationToRank
      have hfl : factorial_number_system
          (lehmer_to_rank (permutation_to_lehmer p)) n =
          permutation_to_lehmer p := by
        have := fns_l2r (permutation_to_lehmer p) hv
        rwa [p2l_length, hplen] at this
      rw [hfl]
      unfold lehmer_to_permutation
      rw [p2l_length, hplen]
      exact l2pAux_p2l p (List.range n) (List.pairwise_lt_range n) hp
    · rintro r ⟨hr, hrp⟩
      rw [← hrp]
      exact (rank_roundtrip n r hr).symm

/-- Witness for C3 at `n = 3`, `rank = 4`. -/
theorem c3_rank_permutation_bijection_witness :
    (rankToPermutation 4 3).Perm (List.range 3) ∧
    permutationToRank (rankToPermutation 4 3) = 4 :=
  (c3_rank_permutation_bijection 3 (by decide)).1 4 (by decide)

/-! ### Transmission / Reception sessions (orim_server.py)

Hashes are opaque `Nat` identifiers and the PRF (`ORIMServer.prf`, an
HMAC-SHA256 keyed by the shared secret) is an opaque parameter
`prf : Nat → Nat`: the handlers only use it through the order of its
values. -/

/-- Lexicographic order on `(obfuscated_value, index)` pairs: exactly
how Python's `list.sort()` compares the tuples built in
`handle_send_request` / `handle_receive_request`. -/
def pairLe (p q : Nat × Nat) : Prop :=
  p.1 < q.1 ∨ (p.1 = q.1 ∧ p.2 ≤ q.2)

instance decPairLe : DecidableRel pairLe := fun p q => by
  unfold pairLe; infer_instance

instance totalPairLe : IsTotal (Nat × Nat) pairLe :=
  ⟨fun p q => by unfold pairLe; omega⟩

instance transPairLe : IsTrans (Nat × Nat) pairLe :=
  ⟨fun a b c hab hbc => by unfold pairLe at *; omega⟩

/-- `[(v, i) for i, v in enumerate(values)]`. -/
def enumVals (vals : List Nat) : List (Nat × Nat) :=
  (List.range vals.length).map (fun i => (vals.getD i 0, i))

/-- `indexed_values.sort()`.  Python's sort is stable, but the keys are
pairwise distinct pairs and `pairLe` is a total antisymmetric order, so
any correct sort yields the same list; we use insertion sort. -/
def sortIndexed (vals : List Nat) : List (Nat × Nat) :=
  List.insertionSort pairLe (enumVals vals)

/-- `natural_order = [i for v, i in indexed_values]` (after sorting) —
also the receiver's `sorted_order`. -/
def natural_order (vals : List Nat) : List Nat :=
  (sortIndexed vals).map Prod.snd

/-- Steps 5–7 of `handle_send_request`: rank → Lehmer → permutation,
`final_indices[i] = natural_order[target_permutation[i]]`,
`reordered_hashes = [hashes[idx] for idx in final_indices]`. -/
def senderReorder (prf : Nat → Nat) (hashes : List Nat) (rank : Nat) :
    List Nat :=
  let n := hashes.length
  let no := natural_order (hashes.map prf)
  let perm := lehmer_to_permutation (factorial_number_system rank n)
  let finalIdx := (List.range n).map (fun i => no.getD (perm.getD i 0) 0)
  finalIdx.map (fun idx => hashes.getD idx 0)

/-- `ORIMServer.handle_send_request` (success path): returns the
reordered hashes together with `(rank, bits_consumed)`; with fewer than
2 hashes the hash set passes through unchanged and nothing is encoded. -/
def handle_send_request (prf : Nat → Nat) (hashes : List Nat)
    (chunk : List Bool) : List Nat × Option (Nat × Nat) :=
  if hashes.length < 2 then (hashes, none)
  else
    ((senderReorder prf hashes (bits_to_rank chunk hashes.length).1),
      some (bits_to_rank chunk hashes.length))

/-- `ORIMServer.handle_receive_request` (success path): returns the
extracted secret bits that are appended to the incoming residue
(`store_received_bits`), or `none` when `n < 2`.
`received_permutation[i] = sorted_to_received[i]` is the position of `i`
in `sorted_order`, i.e. `sorted_order.indexOf i` (`sorted_order` never
has duplicates, so the Python dict lookup and `indexOf` agree). -/
def handle_receive_request (prf : Nat → Nat) (hashes : List Nat) :
    Option (List Bool) :=
  if hashes.length < 2 then none
  else
    let sorted_order := natural_order (hashes.map prf)
    let received_permutation :=
      (List.range hashes.length).map (fun i => List.indexOf i sorted_order)
    some (rank_to_bits
      (lehmer_to_rank (permutation_to_lehmer received_permutation))
      hashes.length)

lemma length_enumVals (vals : List Nat) :
    (enumVals vals).length = vals.length := by
  simp [enumVals]

lemma mem_enumVals {vals : List Nat} {v i : Nat} :
    (v, i) ∈ enumVals vals ↔ i < vals.length ∧ v = vals.getD i 0 := by
  simp only [enumVals, List.mem_map, List.mem_range, Prod.mk.injEq]
  constructor
  · rintro ⟨j, hj, h1, rfl⟩
    exact ⟨hj, h1.symm⟩
  · rintro ⟨hi, hv⟩
    exact ⟨i, hi, hv.symm, rfl⟩

lemma snd_enumVals (vals : List Nat) :
    (enumVals vals).map Prod.snd = List.range vals.length := by
  unfold enumVals
  rw [List.map_map]
  have hid : (Prod.snd ∘ fun i => (vals.getD i 0, i)) = id := by
    funext i; rfl
  rw [hid, List.map_id]

lemma sortIndexed_perm (vals : List Nat) :
    (sortIndexed vals).Perm (enumVals vals) :=
  List.perm_insertionSort pairLe (enumVals vals)

lemma sortIndexed_sorted (vals : List Nat) :
    List.Sorted pairLe (sortIndexed vals) :=
  List.sorted_insertionSort pairLe (enumVals vals)

lemma sortIndexed_length (vals : List Nat) :
    (sortIndexed vals).length = vals.length := by
  rw [(sortIndexed_perm vals).length_eq, length_enumVals]

lemma natural_order_perm_range (vals : List Nat) :
    (natural_order vals).Perm (List.range vals.length) := by
  have h1 := (sortIndexed_perm vals).map Prod.snd
  rw [snd_enumVals] at h1
  exact h1

lemma natural_order_length (vals : List Nat) :
    (natural_order vals).length = vals.length := by
  rw [(natural_order_perm_range vals).length_eq, List.length_range]

lemma natural_order_nodup (vals : List Nat) : (natural_order vals).Nodup :=
  ((natural_order_perm_range vals).nodup_iff).mpr (List.nodup_range _)

/-- Entries of a permutation of `range n`, accessed with `getD`, lie
below `n`. -/
lemma getD_lt_of_perm_range {P : List Nat} {n : Nat}
    (h : P.Perm (List.range n)) {i : Nat} (hi : i < P.length) :
    P.getD i 0 < n := by
  rw [List.getD_eq_getElem _ _ hi]
  have hm := h.subset (List.getElem_mem hi)
  simpa using hm

lemma natural_order_getD_lt (vals : List Nat) {i : Nat}
    (h : i < vals.length) : (natural_order vals).getD i 0 < vals.length :=
  getD_lt_of_perm_range (natural_order_perm_range vals)
    (by rw [natural_order_length]; exact h)

lemma sortIndexed_elem (vals : List Nat) {p : Nat × Nat}
    (hp : p ∈ sortIndexed vals) :
    p.2 < vals.length ∧ p.1 = vals.getD p.2 0 := by
  have hmem := (sortIndexed_perm vals).subset hp
  obtain ⟨a, b⟩ := p
  exact mem_enumVals.mp hmem

/-- With pairwise-distinct obfuscated values, `natural_order` lists the
indices in strictly increasing order of value. -/
lemma natural_order_strict (vals : List Nat)
    (hd : vals.Pairwise (· ≠ ·)) {a b : Nat} (hab : a < b)
    (hb : b < vals.length) :
    vals.getD ((natural_order vals).getD a 0) 0 <
      vals.getD ((natural_order vals).getD b 0) 0 := by
  have haS : a < (sortIndexed vals).length := by rw [sortIndexed_length]; omega
  have hbS : b < (sortIndexed vals).length := by rw [sortIndexed_length]; omega
  have hno_a : (natural_order vals).getD a 0 = (sortIndexed vals)[a].2 := by
    unfold natural_order
    rw [List.getD_eq_getElem _ _ (by rw [List.length_map]; exact haS),
      List.getElem_map]
  have hno_b : (natural_order vals).getD b 0 = (sortIndexed vals)[b].2 := by
    unfold natural_order
    rw [List.getD_eq_getElem _ _ (by rw [List.length_map]; exact hbS),
      List.getElem_map]
  have hrel : pairLe (sortIndexed vals)[a] (sortIndexed vals)[b] :=
    List.pairwise_iff_getElem.mp (sortIndexed_sorted vals) a b haS hbS hab
  have hea := sortIndexed_elem vals (List.getElem_mem haS)
  have heb := sortIndexed_elem vals (List.getElem_mem hbS)
  have hidx_ne : (sortIndexed vals)[a].2 ≠ (sortIndexed vals)[b].2 := by
    intro hcontr
    have haM : a < ((sortIndexed vals).map Prod.snd).length := by
      rw [List.length_map]; exact haS
    have hbM : b < ((sortIndexed vals).map Prod.snd).length := by
      rw [List.length_map]; exact hbS
    have hmap : ((sortIndexed vals).map Prod.snd)[a] =
        ((sortIndexed vals).map Prod.snd)[b] := by
      rw [List.getElem_map, List.getElem_map]
      exact hcontr
    have : a = b := ((natural_order_nodup vals).getElem_inj_iff).mp hmap
    omega
  have hvals_ne : ∀ i j, i < vals.length → j < vals.length → i ≠ j →
      vals.getD i 0 ≠ vals.getD j 0 := by
    intro i j hi hj hne
    rw [List.getD_eq_getElem _ _ hi, List.getD_eq_getElem _ _ hj]
    rcases Nat.lt_or_ge i j with h | h
    · exact List.pairwise_iff_getElem.mp hd i j hi hj h
    · have hlt : j < i := by omega
      exact (List.pairwise_iff_getElem.mp hd j i hj hi hlt).symm
  rcases hrel with h | ⟨heq, _⟩
  · rw [hno_a, hno_b, ← hea.2, ← heb.2]
    exact h
  · exact absurd (by rw [← hea.2, ← heb.2]; exact heq)
      (hvals_ne _ _ hea.1 heb.1 hidx_ne)

/-- The strict increase characterizes the order of positions. -/
lemma natural_order_strict_iff (vals : List Nat)
    (hd : vals.Pairwise (· ≠ ·)) {a b : Nat} (ha : a < vals.length)
    (hb : b < vals.length) :
    vals.getD ((natural_order vals).getD a 0) 0 <
        vals.getD ((natural_order vals).getD b 0) 0 ↔ a < b := by
  constructor
  · intro h
    by_contra hab
    push_neg at hab
    rcases Nat.eq_or_lt_of_le hab with heq | hba
    · rw [heq] at h
      exact lt_irrefl _ h
    · exact absurd h (Nat.lt_asymm (natural_order_strict vals hd hba ha))
  · intro h
    exact natural_order_strict vals hd h hb

lemma map_getD_range (l : List Nat) :
    (List.range l.length).map (fun i => l.getD i 0) = l := by
  apply List.ext_getElem
  · simp
  · intro i h1 h2
    rw [List.getElem_map, List.getElem_range]
    exact List.getD_eq_getElem l 0 h2

/-- If `SW` lists positions in strictly increasing order of
`P`-composed values, then `SW.indexOf i` recovers `P` itself. -/
lemma inverse_from_strict (P SW : List Nat) (n : Nat)
    (hP : P.Perm (List.range n)) (hSW : SW.Perm (List.range n))
    (hmono : ∀ a b, a < b → b < n →
      P.getD (SW.getD a 0) 0 < P.getD (SW.getD b 0) 0) :
    ∀ i, i < n → List.indexOf i SW = P.getD i 0 := by
  have hSWlen : SW.length = n := by rw [hSW.length_eq, List.length_range]
  have hPlen : P.length = n := by rw [hP.length_eq, List.length_range]
  have hLperm : (SW.map (fun j => P.getD j 0)).Perm (List.range n) := by
    have h1 := hSW.map (fun j => P.getD j 0)
    rw [show List.range n = List.range P.length from by rw [hPlen],
      map_getD_range] at h1
    exact h1.trans hP
  have hLlen : (SW.map (fun j => P.getD j 0)).length = n := by
    rw [List.length_map, hSWlen]
  have hLsorted : List.Sorted (· < ·) (SW.map (fun j => P.getD j 0)) := by
    rw [List.Sorted, List.pairwise_iff_getElem]
    intro a b ha hb hab
    rw [hLlen] at ha hb
    have ha' : a < SW.length := by omega
    have hb' : b < SW.length := by omega
    rw [List.getElem_map, List.getElem_map,
      ← List.getD_eq_getElem SW 0 ha', ← List.getD_eq_getElem SW 0 hb']
    exact hmono a b hab hb
  have hLeq : SW.map (fun j => P.getD j 0) = List.range n :=
    List.eq_of_perm_of_sorted hLperm hLsorted
      (List.pairwise_lt_range n)
  intro i hi
  have hiSW : i ∈ SW := hSW.mem_iff.mpr (List.mem_range.mpr hi)
  have hidx : List.indexOf i SW < SW.length :=
    List.indexOf_lt_length.mpr hiSW
  have hidx_n : List.indexOf i SW < n := by rw [← hSWlen]; exact hidx
  have hSWat : SW[List.indexOf i SW] = i := List.getElem_indexOf hidx
  have h3 : ((SW.map (fun j => P.getD j 0))[List.indexOf i SW]?) =
      ((List.range n)[List.indexOf i SW]?) := by rw [hLeq]
  rw [List.getElem?_map, List.getElem?_eq_getElem hidx, hSWat,
    List.getElem?_range hidx_n] at h3
  simpa using h3.symm

lemma senderReorder_eq (prf : Nat → Nat) (hashes : List Nat) (rank : Nat)
    (h : rank < (hashes.length).factorial) :
    senderReorder prf hashes rank =
      (lehmer_to_permutation (factorial_number_system rank hashes.length)).map
        (fun k => hashes.getD ((natural_order (hashes.map prf)).getD k 0) 0) := by
  have hplen : (lehmer_to_permutation
      (factorial_number_system rank hashes.length)).length = hashes.length := by
    have hl := (rankToPermutation_perm_range hashes.length rank h).length_eq
    simpa [rankToPermutation] using hl
  unfold senderReorder
  apply List.ext_getElem
  · simp [hplen]
  · intro i h1 h2
    simp only [List.getElem_map, List.getElem_range]
    rw [List.getD_eq_getElem
      (lehmer_to_permutation (factorial_number_system rank hashes.length)) 0
      (by simpa [hplen] using h2)]

/-- The permutation reconstructed by `handle_receive_request` from the
reordered hash set equals the permutation the sender applied (given
pairwise-distinct PRF values). -/
lemma receive_permutation_eq (prf : Nat → Nat) (hashes permL : List Nat)
    (hdist : (hashes.map prf).Pairwise (· ≠ ·))
    (hpermL : permL.Perm (List.range hashes.length)) :
    (List.range (permL.map (fun k =>
        hashes.getD ((natural_order (hashes.map prf)).getD k 0) 0)).length).map
      (fun i => List.indexOf i (natural_order ((permL.map (fun k =>
        hashes.getD ((natural_order (hashes.map prf)).getD k 0) 0)).map prf)))
      = permL := by
  set n := hashes.length with hn_def
  set vals := hashes.map prf with hvals_def
  set no := natural_order vals with hno_def
  set g : Nat → Nat := fun k => hashes.getD (no.getD k 0) 0 with hg_def
  set W := (permL.map g).map prf with hW_def
  set SW := natural_order W with hSW_def
  have hvlen : vals.length = n := by rw [hvals_def, List.length_map]
  have hplen : permL.length = n := by
    rw [hpermL.length_eq, List.length_range]
  have hWlen : W.length = n := by
    rw [hW_def, List.length_map, List.length_map, hplen]
  have hpermL_nodup : permL.Nodup :=
    hpermL.nodup_iff.mpr (List.nodup_range n)
  have hpermL_getD_lt : ∀ j, j < n → permL.getD j 0 < n := fun j hj =>
    getD_lt_of_perm_range hpermL (by omega)
  -- `W` entry `j` is the obfuscated value at canonical position `permL[j]`.
  have hWj : ∀ j, j < n → W.getD j 0 =
      vals.getD (no.getD (permL.getD j 0) 0) 0 := by
    intro j hj
    have hjpL : j < permL.length := by omega
    have hnoj : no.getD (permL.getD j 0) 0 < n := by
      have h5 := natural_order_getD_lt vals
        (show permL.getD j 0 < vals.length by
          rw [hvlen]; exact hpermL_getD_lt j hj)
      rw [← hno_def, hvlen] at h5
      exact h5
    have hleft : W.getD j 0 =
        prf (hashes.getD (no.getD (permL.getD j 0) 0) 0) := by
      have e : W[j]? =
          some (prf (hashes.getD (no.getD (permL.getD j 0) 0) 0)) := by
        rw [hW_def, List.getElem?_map, List.getElem?_map,
          List.getElem?_eq_getElem hjpL]
        simp only [Option.map_some', hg_def]
        rw [← List.getD_eq_getElem permL 0 hjpL]
      rw [List.getD_eq_getElem?_getD, e, Option.getD_some]
    have hright : vals.getD (no.getD (permL.getD j 0) 0) 0 =
        prf (hashes.getD (no.getD (permL.getD j 0) 0) 0) := by
      rw [hvals_def, List.getD_eq_getElem (List.map prf hashes) 0
        (by rw [List.length_map]; omega), List.getElem_map,
        List.getD_eq_getElem hashes 0 (by omega)]
    rw [hleft, hright]
  -- distinctness of `W`
  have hWdist : W.Pairwise (· ≠ ·) := by
    rw [List.pairwise_iff_getElem]
    intro i j hi hj hij
    rw [hWlen] at hi hj
    rw [← List.getD_eq_getElem W 0 (by omega : i < W.length),
      ← List.getD_eq_getElem W 0 (by omega : j < W.length),
      hWj i hi, hWj j hj]
    have hne : permL.getD i 0 ≠ permL.getD j 0 := by
      rw [List.getD_eq_getElem permL 0 (by omega : i < permL.length),
        List.getD_eq_getElem permL 0 (by omega : j < permL.length)]
      intro hcontr
      exact absurd (hpermL_nodup.getElem_inj_iff.mp hcontr) (by omega)
    have hilt := hpermL_getD_lt i hi
    have hjlt := hpermL_getD_lt j hj
    rcases Nat.lt_or_ge (permL.getD i 0) (permL.getD j 0) with h | h
    · exact Nat.ne_of_lt ((natural_order_strict_iff vals hdist
        (by omega) (by omega)).mpr h)
    · have hlt : permL.getD j 0 < permL.getD i 0 := by omega
      exact (Nat.ne_of_lt ((natural_order_strict_iff vals hdist
        (by omega) (by omega)).mpr hlt)).symm
  have hSWperm : SW.Perm (List.range n) := by
    rw [hSW_def]
    have := natural_order_perm_range W
    rwa [hWlen] at this
  have hSWlen : SW.length = n := by rw [hSWperm.length_eq, List.length_range]
  -- monotonicity: positions sorted by W-value are sorted by permL-value
  have hmono : ∀ a b, a < b → b < n →
      permL.getD (SW.getD a 0) 0 < permL.getD (SW.getD b 0) 0 := by
    intro a b hab hb
    have hWstrict := natural_order_strict W hWdist hab
      (by omega : b < W.length)
    rw [← hSW_def] at hWstrict
    have hSWa : SW.getD a 0 < n := getD_lt_of_perm_range hSWperm
      (by omega : a < SW.length)
    have hSWb : SW.getD b 0 < n := getD_lt_of_perm_range hSWperm
      (by omega : b < SW.length)
    rw [hWj _ hSWa, hWj _ hSWb] at hWstrict
    exact (natural_order_strict_iff vals hdist
      (by rw [hvlen]; exact hpermL_getD_lt _ hSWa)
      (by rw [hvlen]; exact hpermL_getD_lt _ hSWb)).mp hWstrict
  have hinv := inverse_from_strict permL SW n hpermL hSWperm hmono
  apply List.ext_getElem
  · rw [List.length_map, List.length_range, List.length_map, hplen]
  · intro i h1 h2
    rw [List.getElem_map, List.getElem_range]
    have hi : i < n := by
      rw [List.length_map, List.length_range, List.length_map, hplen] at h1
      omega
    rw [hinv i hi]
    exact List.getD_eq_getElem permL 0 h2

/-- Single-event sender/receiver consistency: with the same PRF and
pairwise-distinct obfuscated values, Reception recovers exactly
`rank_to_bits` of the rank Transmission used. -/
lemma receive_inverts_send (prf : Nat → Nat) (hashes : List Nat)
    (rank : Nat) (hn : 2 ≤ hashes.length)
    (hdist : (hashes.map prf).Pairwise (· ≠ ·))
    (hrank : rank < (hashes.length).factorial) :
    handle_receive_request prf (senderReorder prf hashes rank) =
      some (rank_to_bits rank hashes.length) := by
  have hpermLperm : (lehmer_to_permutation
      (factorial_number_system rank hashes.length)).Perm
      (List.range hashes.length) := by
    have := rankToPermutation_perm_range hashes.length rank hrank
    simpa [rankToPermutation] using this
  have hplen : (lehmer_to_permutation
      (factorial_number_system rank hashes.length)).length = hashes.length := by
    rw [hpermLperm.length_eq, List.length_range]
  rw [senderReorder_eq prf hashes rank hrank]
  have hreordlen : ((lehmer_to_permutation
      (factorial_number_system rank hashes.length)).map (fun k =>
        hashes.getD ((natural_order (hashes.map prf)).getD k 0) 0)).length =
      hashes.length := by
    rw [List.length_map, hplen]
  unfold handle_receive_request
  rw [if_neg (by omega : ¬ ((lehmer_to_permutation
      (factorial_number_system rank hashes.length)).map (fun k =>
        hashes.getD ((natural_order (hashes.map prf)).getD k 0) 0)).length < 2)]
  dsimp only
  rw [receive_permutation_eq prf hashes
    (lehmer_to_permutation (factorial_number_system rank hashes.length))
    hdist hpermLperm]
  rw [hreordlen]
  have hp2l : permutation_to_lehmer (lehmer_to_permutation
      (factorial_number_system rank hashes.length)) =
      factorial_number_system rank hashes.length := by
    have hval := validL_fns rank hashes.length hrank
    unfold lehmer_to_permutation
    exact p2l_l2pAux (factorial_number_system rank hashes.length)
      (List.range (factorial_number_system rank hashes.length).length)
      (List.pairwise_lt_range _) hval (by simp)
  rw [hp2l, l2r_fns rank hashes.length hrank]

/-- Claim C4 (corrected, per-event part): for every hash set of `n ≥ 2`
hashes whose PRF values are pairwise distinct, the bits stored by
`handle_receive_request`, when given (with the same secret key) the
reordered hashes produced by `handle_send_request`, are exactly
`rank_to_bits` of the sender's rank for that event. -/
theorem c4_receiver_recovers_sender_bits (prf : Nat → Nat)
    (hashes : List Nat) (chunk : List Bool) (hn : 2 ≤ hashes.length)
    (hdist : (hashes.map prf).Pairwise (· ≠ ·)) :
    handle_receive_request prf (handle_send_request prf hashes chunk).1 =
      some (rank_to_bits (bits_to_rank chunk hashes.length).1
        hashes.length) := by
  unfold handle_send_request
  rw [if_neg (by omega : ¬ hashes.length < 2)]
  exact receive_inverts_send prf hashes
    (bits_to_rank chunk hashes.length).1 hn hdist
    (bits_to_rank_fst_lt chunk hashes.length)

/-- Witness for C4's amended claim: three hashes with `prf = id`
(distinct values), chunk `"10"`. -/
theorem c4_receiver_recovers_sender_bits_witness :
    handle_receive_request id
        (handle_send_request id [5, 3, 9] [true, false]).1 =
      some (rank_to_bits (bits_to_rank [true, false] 3).1 3) :=
  c4_receiver_recovers_sender_bits id [5, 3, 9] [true, false]
    (by decide) (by decide)

/-- A whole run of the server over a sequence of protocol events, with
one queued outgoing message: state is `(cursor position, incoming
residue)`.  Per event (as in `orim_server.py`): events with `n < 2` are
no-ops on both sides; otherwise the sender fetches the padded chunk at
the cursor (`get_next_secret_bits` — the dummy all-zero chunk once the
message is complete, i.e. once `position ≥ len(bits)`), encodes it,
advances the cursor by `bits_consumed` (only while a message is
pending), and the receiver processes the reordered hash set and appends
the extracted bits to the residue. -/
def runEvents (prf : Nat → Nat) (payload : List Bool) :
    List (List Nat) → Nat → List Bool → Nat × List Bool
  | [], pos, residue => (pos, residue)
  | hs :: rest, pos, residue =>
    if hs.length < 2 then runEvents prf payload rest pos residue
    else
      let chunk := if pos < payload.length then
          get_next_chunk payload pos hs.length
        else List.replicate (m_of (hs.length.factorial)) false
      let rc := bits_to_rank chunk hs.length
      let pos2 := if pos < payload.length then pos + rc.2 else pos
      match handle_receive_request prf (senderReorder prf hs rc.1) with
      | some bits => runEvents prf payload rest pos2 (residue ++ bits)
      | none => runEvents prf payload rest pos2 residue

/-- Occurrences of `pat` as a contiguous substring of `l` (raw bit
comparison at every offset). -/
def occCount (pat l : List Bool) : Nat :=
  (List.range (l.length + 1)).countP
    (fun i => decide ((l.drop i).take pat.length = pat))

/-- The bit payload of the queued message `"HI"`:
`"0100100001001001"`. -/
def hiBits : List Bool :=
  [false, true, false, false, true, false, false, false,
   false, true, false, false, true, false, false, true]

/-- Claim C4 counterexample (whole-run part): queue `"HI"` and run the
events `n = 2, 7, 2, 2, 2` (hashes `0, 1, …` with `prf = id`, so all
PRF values are pairwise distinct in every event).  The message is
driven to completion (final cursor = 16), yet the concatenated incoming
residue contains the payload bit string zero times — not exactly once:
at the `n = 7` event the sender's short-layer rank `3152 + 2313 = 5465`
is clamped to `5039`, which decodes to different bits, so 12 payload
bits are lost.  This refutes the claim's "no loss" run property. -/
theorem c4_run_counterexample :
    (runEvents id hiBits [[0, 1], [0, 1, 2, 3, 4, 5, 6], [0, 1], [0, 1],
      [0, 1]] 0 []).1 = hiBits.length ∧
    occCount hiBits (runEvents id hiBits [[0, 1], [0, 1, 2, 3, 4, 5, 6],
      [0, 1], [0, 1], [0, 1]] 0 []).2 = 0 := by
  refine ⟨by decide, by decide⟩

/-! ### Frame codec (protocol.py) and streaming decoder -/

/-- One round of the reflected CRC-32 bit loop (polynomial
`0xEDB88320`). -/
def crc32Round (c : Nat) : Nat :=
  if c % 2 = 1 then (c / 2) ^^^ 0xEDB88320 else c / 2

/-- Fold one byte into the running CRC. -/
def crcByteStep (crc b : Nat) : Nat :=
  (List.range 8).foldl (fun c _ => crc32Round c) (crc ^^^ b)

/-- `binascii.crc32` (zlib CRC-32: init `0xFFFFFFFF`, reflected
polynomial `0xEDB88320`, final xor `0xFFFFFFFF`). -/
def crc32 (bytes : List Nat) : Nat :=
  (bytes.foldl crcByteStep 0xFFFFFFFF) ^^^ 0xFFFFFFFF

/-- `format(x, '0wb')`: fixed-width big-endian bits of `x` (also
`bin(rank)[2:].zfill(w)` for `x < 2^w`). -/
def bitsOfNat : Nat → Nat → List Bool
  | 0, _ => []
  | w + 1, x => decide (x / 2 ^ w % 2 = 1) :: bitsOfNat w x

/-- `''.join(format(byte, '08b') for byte in frame)`. -/
def bytesToBits : List Nat → List Bool
  | [] => []
  | b :: bs => bitsOfNat 8 b ++ bytesToBits bs

/-- `int.to_bytes(k, byteorder='big')` for values `< 256^k` (the
decoder's `payload_int` is always `< 2^368 = 256^46`). -/
def natToBytes : Nat → Nat → List Nat
  | 0, _ => []
  | k + 1, v => v / 256 ^ k % 256 :: natToBytes k v

/-- UTF-8 continuation byte. -/
def utf8Cont (b : Nat) : Bool := 128 ≤ b && b ≤ 191

/-- Restricted ranges of the first continuation byte after a 3-byte
leader (no overlongs after `0xE0`, no surrogates after `0xED`). -/
def utf8Cont2 (b c1 : Nat) : Bool :=
  if b = 224 then 160 ≤ c1 && c1 ≤ 191
  else if b = 237 then 128 ≤ c1 && c1 ≤ 159
  else utf8Cont c1

/-- Restricted ranges of the first continuation byte after a 4-byte
leader (no overlongs after `0xF0`, nothing above U+10FFFF after
`0xF4`). -/
def utf8Cont3 (b c1 : Nat) : Bool :=
  if b = 240 then 144 ≤ c1 && c1 ≤ 191
  else if b = 244 then 128 ≤ c1 && c1 ≤ 143
  else utf8Cont c1

/-- Byte-level validity check equivalent to Python's strict
`bytes.decode('utf-8')` succeeding (RFC 3629: no orphan continuations,
no overlong forms, no surrogates, nothing above U+10FFFF). -/
def utf8Valid : List Nat → Bool
  | [] => true
  | b :: rest =>
    if b ≤ 127 then utf8Valid rest
    else if b ≤ 193 then false
    else if b ≤ 223 then
      decide (1 ≤ rest.length) && utf8Cont (rest.getD 0 0) &&
        utf8Valid (rest.drop 1)
    else if b ≤ 239 then
      decide (2 ≤ rest.length) && utf8Cont2 b (rest.getD 0 0) &&
        utf8Cont (rest.getD 1 0) && utf8Valid (rest.drop 2)
    else if b ≤ 244 then
      decide (3 ≤ rest.length) && utf8Cont3 b (rest.getD 0 0) &&
        utf8Cont (rest.getD 1 0) && utf8Cont (rest.getD 2 0) &&
        utf8Valid (rest.drop 3)
    else false
  termination_by l => l.length
  decreasing_by
    all_goals simp [List.length_drop]
    all_goals omega

/-- `ORIMProtocol.MAGIC_BIN = format(0x00FF, '016b')`. -/
def MAGIC_BIN : List Bool := bitsOfNat 16 255

/-- `ORIMProtocol.FRAME_BITS_LEN = 16 + 46*8 + 8`. -/
def FRAME_BITS_LEN : Nat := 392

/-- The frame built by `ORIMProtocol.pack_cid` after validation:
`struct.pack('>H46sB', 0x00FF, payload, crc32(payload) & 0xFF)` emitted
as bits.  The CID string is modelled by its UTF-8 bytes (Base58 CIDs
are ASCII, so characters and bytes coincide). -/
def pack_frame (cid : List Nat) : List Bool :=
  bytesToBits ([0, 255] ++ cid ++ [crc32 cid &&& 255])

/-- `ORIMProtocol.pack_cid`: `ValueError` (here `none`) unless the CID
has length 46 and starts with `"Qm"` (bytes `81, 109`). -/
def pack_cid (cid : List Nat) : Option (List Bool) :=
  if cid.length = 46 ∧ cid.take 2 = [81, 109] then some (pack_frame cid)
  else none

/-- The body of `decode_stream`'s scan loop at bit offset `i`: 16-bit
magic match, payload/CRC extraction, CRC check, UTF-8 decode and the
`"Qm"` re-check (for UTF-8-valid bytes, the decoded string starts with
`"Qm"` iff the first two bytes are `81, 109`, since `Q` and `m` are
single-byte code points and continuation bytes are `≥ 128`). -/
def tryAt (s : List Bool) (i : Nat) : Option (List Nat) :=
  if (s.drop i).take 16 = MAGIC_BIN then
    let payload_bytes := natToBytes 46 (bitsVal ((s.drop (i + 16)).take 368))
    let crc_int := bitsVal ((s.drop (i + 384)).take 8)
    if crc_int = crc32 payload_bytes &&& 255 ∧ utf8Valid payload_bytes = true
        ∧ payload_bytes.take 2 = [81, 109] then
      some payload_bytes
    else none
  else none

/-- `for i in range(limit)` of `decode_stream`, with the remaining
offset count as fuel. -/
def scanLoop (s : List Bool) : Nat → Nat → Option (List Nat) × Nat
  | _, 0 => (none, 0)
  | i, fuel + 1 =>
    match tryAt s i with
    | some cid => (some cid, i + FRAME_BITS_LEN)
    | none => scanLoop s (i + 1) fuel

/-- `ORIMProtocol.decode_stream`: give up below one frame length,
otherwise scan every bit offset up to `len - FRAME_BITS_LEN`. -/
def decode_stream (s : List Bool) : Option (List Nat) × Nat :=
  if s.length < FRAME_BITS_LEN then (none, 0)
  else scanLoop s 0 (s.length - FRAME_BITS_LEN + 1)

/-- The pure core of `ORIMServer._try_decode_messages`: concatenated
residue bits are cut into bytes, the printable-ASCII prefix is taken,
and a non-empty prefix is inserted into `decoded_messages` — with no
magic, length or checksum verification at all. -/
def try_decode_messages (bits : List Bool) : Option (List Nat) :=
  if 8 ≤ bits.length then
    let bytes := (List.range (bits.length / 8)).map
      (fun i => bitsVal ((bits.drop (8 * i)).take 8))
    let msg := bytes.takeWhile (fun b => decide (32 ≤ b ∧ b ≤ 126))
    if msg.isEmpty then none else some msg
  else none

/-! ### Frame codec lemmas -/

lemma length_bitsOfNat (w x : Nat) : (bitsOfNat w x).length = w := by
  induction w generalizing x with
  | zero => rfl
  | succ w ih => simp [bitsOfNat, ih]

lemma bitsVal_lt (l : List Bool) : bitsVal l < 2 ^ l.length := by
  induction l with
  | nil => simp [bitsVal]
  | cons b r ih =>
    simp only [bitsVal, List.length_cons, pow_succ]
    cases b <;> simp <;> omega

lemma bitsVal_bitsOfNat (w x : Nat) :
    bitsVal (bitsOfNat w x) = x % 2 ^ w := by
  induction w with
  | zero => simp [bitsOfNat, bitsVal, Nat.mod_one]
  | succ w ih =>
    simp only [bitsOfNat, bitsVal, length_bitsOfNat, ih]
    have hd : (cond (decide (x / 2 ^ w % 2 = 1)) 1 0 : Nat) = x / 2 ^ w % 2 := by
      rcases Nat.mod_two_eq_zero_or_one (x / 2 ^ w) with h | h <;> simp [h]
    rw [hd, pow_succ, Nat.mod_mul]
    ring

lemma length_bytesToBits (bs : List Nat) :
    (bytesToBits bs).length = 8 * bs.length := by
  induction bs with
  | nil => rfl
  | cons b rest ih =>
    simp only [bytesToBits, List.length_append, length_bitsOfNat,
      List.length_cons, ih]
    ring

lemma bytesToBits_append (a b : List Nat) :
    bytesToBits (a ++ b) = bytesToBits a ++ bytesToBits b := by
  induction a with
  | nil => rfl
  | cons x xs ih => simp [bytesToBits, ih]

lemma natToBytes_add_mul (k : Nat) :
    ∀ c w, natToBytes k (c * 256 ^ k + w) = natToBytes k w := by
  induction k with
  | zero => intro c w; rfl
  | succ k ih =>
    intro c w
    simp only [natToBytes]
    congr 1
    · have h2 : c * 256 ^ (k + 1) + w = w + 256 ^ k * (c * 256) := by ring
      rw [h2, Nat.add_mul_div_left _ _ (pow_pos (by norm_num) k),
        Nat.add_mul_mod_self_right]
    · have h1 : c * 256 ^ (k + 1) + w = (c * 256) * 256 ^ k + w := by ring
      rw [h1]
      exact ih (c * 256) w

lemma natToBytes_bytesToBits (bs : List Nat) (hb : ∀ b ∈ bs, b < 256) :
    natToBytes bs.length (bitsVal (bytesToBits bs)) = bs := by
  induction bs with
  | nil => rfl
  | cons b rest ih =>
    have hb256 : b < 256 := hb b (List.mem_cons_self _ _)
    have hrest : ∀ x ∈ rest, x < 256 := fun x hx =>
      hb x (List.mem_cons_of_mem _ hx)
    have hpow : (2 : Nat) ^ (8 * rest.length) = 256 ^ rest.length := by
      rw [pow_mul]
      norm_num
    have hw : bitsVal (bytesToBits rest) < 256 ^ rest.length := by
      have h1 := bitsVal_lt (bytesToBits rest)
      rwa [length_bytesToBits, hpow] at h1
    have h28 : (2 : Nat) ^ 8 = 256 := by norm_num
    simp only [bytesToBits, List.length_cons, bitsVal_append,
      length_bytesToBits, bitsVal_bitsOfNat, h28,
      Nat.mod_eq_of_lt hb256, hpow]
    simp only [natToBytes]
    congr 1
    · rw [show b * 256 ^ rest.length + bitsVal (bytesToBits rest) =
          bitsVal (bytesToBits rest) + 256 ^ rest.length * b from by ring,
        Nat.add_mul_div_left _ _ (pow_pos (by norm_num) _),
        Nat.div_eq_of_lt hw]
      simp [Nat.mod_eq_of_lt hb256]
    · rw [natToBytes_add_mul rest.length b (bitsVal (bytesToBits rest))]
      exact ih hrest

lemma ascii_utf8Valid (bs : List Nat) (h : ∀ b ∈ bs, b < 128) :
    utf8Valid bs = true := by
  induction bs with
  | nil => simp [utf8Valid]
  | cons b rest ih =>
    have hb : b < 128 := h b (List.mem_cons_self _ _)
    have hstep : utf8Valid (b :: rest) = utf8Valid rest := by
      simp only [utf8Valid]
      rw [if_pos (by omega : b ≤ 127)]
    rw [hstep]
    exact ih (fun x hx => h x (List.mem_cons_of_mem _ hx))

/-- `pack_frame` split into its magic / payload / checksum fields. -/
lemma pack_frame_parts (cid : List Nat) :
    pack_frame cid =
      MAGIC_BIN ++ (bytesToBits cid ++
        bitsOfNat 8 (crc32 cid &&& 255)) := by
  unfold pack_frame
  rw [bytesToBits_append, bytesToBits_append]
  have h1 : bytesToBits [0, 255] = MAGIC_BIN := by decide
  have h2 : bytesToBits [crc32 cid &&& 255] =
      bitsOfNat 8 (crc32 cid &&& 255) := by
    show bitsOfNat 8 _ ++ bytesToBits [] = _
    rw [show bytesToBits [] = [] from rfl, List.append_nil]
  rw [h1, h2, List.append_assoc]

lemma pack_frame_length (cid : List Nat) (h : cid.length = 46) :
    (pack_frame cid).length = 392 := by
  rw [pack_frame_parts, List.length_append, List.length_append,
    length_bytesToBits, length_bitsOfNat, h]
  rfl

/-- The scan loop returns the first verified frame. -/
lemma scanLoop_finds (s : List Bool) (L : Nat) (cid : List Nat)
    (hL : tryAt s L = some cid) :
    ∀ fuel i, i ≤ L → L < i + fuel →
      (∀ j, i ≤ j → j < L → tryAt s j = none) →
      scanLoop s i fuel = (some cid, L + FRAME_BITS_LEN) := by
  intro fuel
  induction fuel with
  | zero => intro i _ hfuel _; omega
  | succ fuel ih =>
    intro i hi hfuel hnone
    by_cases hiL : i = L
    · subst hiL
      simp [scanLoop, hL]
    · have hilt : i < L := by omega
      have hnone_i : tryAt s i = none := hnone i (le_refl i) hilt
      simp only [scanLoop, hnone_i]
      exact ih (i + 1) (by omega) (by omega)
        (fun j hj1 hj2 => hnone j (by omega) hj2)

/-- The verified frame at the start of `pack_frame cid` self-decodes. -/
lemma tryAt_frame (cid : List Nat) (noise : List Bool)
    (hlen46 : cid.length = 46) (hQm : cid.take 2 = [81, 109])
    (hascii : ∀ b ∈ cid, b < 128) :
    tryAt (noise ++ pack_frame cid) noise.length = some cid := by
  have hb256 : ∀ b ∈ cid, b < 256 := fun b hb =>
    lt_trans (hascii b hb) (by norm_num)
  have hdropL : (noise ++ pack_frame cid).drop noise.length =
      pack_frame cid := List.drop_left _ _
  have hmagic : ((noise ++ pack_frame cid).drop noise.length).take 16 =
      MAGIC_BIN := by
    rw [hdropL, pack_frame_parts,
      show (16 : Nat) = MAGIC_BIN.length from rfl, List.take_left]
  have hdrop16 : (noise ++ pack_frame cid).drop (noise.length + 16) =
      bytesToBits cid ++ bitsOfNat 8 (crc32 cid &&& 255) := by
    rw [← List.drop_drop, hdropL, pack_frame_parts,
      show (16 : Nat) = MAGIC_BIN.length from rfl, List.drop_left]
  have hpayload : ((noise ++ pack_frame cid).drop
      (noise.length + 16)).take 368 = bytesToBits cid := by
    rw [hdrop16, show (368 : Nat) = (bytesToBits cid).length from by
      rw [length_bytesToBits, hlen46], List.take_left]
  have hdrop384 : (noise ++ pack_frame cid).drop (noise.length + 384) =
      bitsOfNat 8 (crc32 cid &&& 255) := by
    rw [← List.drop_drop, hdropL, pack_frame_parts,
      show MAGIC_BIN ++ (bytesToBits cid ++
          bitsOfNat 8 (crc32 cid &&& 255)) =
        (MAGIC_BIN ++ bytesToBits cid) ++
          bitsOfNat 8 (crc32 cid &&& 255) from by
        rw [List.append_assoc],
      show (384 : Nat) = (MAGIC_BIN ++ bytesToBits cid).length from by
        rw [List.length_append, length_bytesToBits, hlen46]; rfl,
      List.drop_left]
  have hcrcbits : ((noise ++ pack_frame cid).drop
      (noise.length + 384)).take 8 = bitsOfNat 8 (crc32 cid &&& 255) := by
    rw [hdrop384]
    exact List.take_of_length_le (by rw [length_bitsOfNat])
  have hbytes : natToBytes 46 (bitsVal (((noise ++ pack_frame cid).drop
      (noise.length + 16)).take 368)) = cid := by
    rw [hpayload, ← hlen46]
    exact natToBytes_bytesToBits cid hb256
  have hcrcval : bitsVal (((noise ++ pack_frame cid).drop
      (noise.length + 384)).take 8) = crc32 cid &&& 255 := by
    rw [hcrcbits, bitsVal_bitsOfNat]
    exact Nat.mod_eq_of_lt (lt_of_le_of_lt Nat.and_le_right (by norm_num))
  unfold tryAt
  rw [if_pos hmagic, hbytes, hcrcval]
  rw [if_pos ⟨rfl, ascii_utf8Valid cid hascii, hQm⟩]

/-- Claim C7 (confirmed): for a valid payload (46 ASCII bytes starting
`"Qm"`) and any noise prefix in which no bit offset yields a magic match
passing checksum and format verification, `decode_stream` on
`noise ++ pack_cid(p)` returns the payload and consumes
`len(noise) + 392` bits; with empty noise it returns `(p, 392)`. -/
theorem c7_frame_scan_roundtrip (cid : List Nat) (noise : List Bool)
    (frame : List Bool) (hascii : ∀ b ∈ cid, b < 128)
    (hpack : pack_cid cid = some frame)
    (hnoise : ∀ j, j < noise.length → tryAt (noise ++ frame) j = none) :
    decode_stream (noise ++ frame) = (some cid, noise.length + 392) := by
  have hval : cid.length = 46 ∧ cid.take 2 = [81, 109] := by
    by_contra hcon
    simp [pack_cid, hcon] at hpack
  have hframe : frame = pack_frame cid := by
    rw [pack_cid, if_pos hval] at hpack
    exact (Option.some.injEq _ _).mp hpack.symm
  obtain ⟨hlen46, hQm⟩ := hval
  subst hframe
  have hflen : (pack_frame cid).length = 392 := pack_frame_length cid hlen46
  have hslen : (noise ++ pack_frame cid).length = noise.length + 392 := by
    rw [List.length_append, hflen]
  have htry := tryAt_frame cid noise hlen46 hQm hascii
  unfold decode_stream
  rw [if_neg (by rw [hslen]; unfold FRAME_BITS_LEN; omega)]
  have hfuel : (noise ++ pack_frame cid).length - FRAME_BITS_LEN + 1 =
      noise.length + 1 := by
    rw [hslen]; unfold FRAME_BITS_LEN; omega
  rw [hfuel]
  have hscan := scanLoop_finds (noise ++ pack_frame cid) noise.length cid
    htry (noise.length + 1) 0 (by omega) (by omega)
    (fun j _ hj => hnoise j hj)
  rw [hscan]
  rfl

set_option maxRecDepth 20000 in
/-- Witness for C7: the CID `"Qm" ++ "a"*44` with no noise. -/
theorem c7_frame_scan_roundtrip_witness :
    decode_stream (pack_frame ([81, 109] ++ List.replicate 44 97)) =
      (some ([81, 109] ++ List.replicate 44 97), 392) := by
  have h := c7_frame_scan_roundtrip ([81, 109] ++ List.replicate 44 97) []
    (pack_frame ([81, 109] ++ List.replicate 44 97))
    (by decide)
    (by unfold pack_cid; rw [if_pos (by decide)])
    (fun j hj => absurd hj (by simp))
  simpa using h

/-- Claim C9 (code_bug): the claim states a DecodedMessage is created
iff a candidate frame passed magic alignment, exact length and checksum.
But `ORIMServer._try_decode_messages` (run on every
`store_received_bits`) inserts a DecodedMessage from any printable-ASCII
prefix of the residue with no frame verification at all: the 8 bits of
`"H"` (byte 72) yield a persisted message `"H"` although the residue
contains no frame (`decode_stream` on those bits returns
`(none, 0)`). -/
theorem c9_unverified_decode :
    try_decode_messages (bitsOfNat 8 72) = some [72] ∧
    decode_stream (bitsOfNat 8 72) = (none, 0) := by
  refine ⟨by decide, by decide⟩

end Orim
